import Mathlib

/-!
Verification of the tagmatic text-classification library against its
specification. The library delegates classification to an external LLM;
the logic verified here is the orchestration layer: category registry
validation, response parsing, single-shot validation with strict/lenient
failure handling, and the voting classifier (tally, tie-break, aggregate
confidence). The Python implementation of `tagmatic.core` is not part of
the staged sources (only its notebook caller is), so the definitions
below are modelled from the specification and from the call sites in
`src/examples/complaints_classification_demo.ipynb`.

Confidences are represented as exact unnormalized fractions of natural
numbers (`Frac`), with `Frac.toRat : Frac → ℚ` giving their numeric
value; this keeps every operation kernel-computable while all
range and ordering statements are made in `ℚ`.
-/

deriving instance DecidableEq for Except

namespace Tagmatic

/-- Modelled from the spec: an exact nonnegative fraction standing for the
real-valued confidence the implementation carries (numerator over
denominator, not normalized). -/
structure Frac where
  num : Nat
  den : Nat
deriving DecidableEq, Repr

/-- Numeric value of a fraction, as a rational. -/
def Frac.toRat (f : Frac) : ℚ := (f.num : ℚ) / (f.den : ℚ)

/-- Exact addition of fractions (cross multiplication). -/
def Frac.add (x y : Frac) : Frac := ⟨x.num * y.den + y.num * x.den, x.den * y.den⟩

/-- Exact strict comparison of fractions by cross multiplication. -/
def Frac.blt (x y : Frac) : Bool := decide (x.num * y.den < y.num * x.den)

/-- The zero confidence, written 0.0 in the spec. -/
def Frac.zero : Frac := ⟨0, 1⟩

/-- Modelled from the spec: a named, described label the LLM may assign to an
input text (data model of `tagmatic.core.category.Category`). -/
structure Category where
  name : String
  description : String
  examples : List String
deriving DecidableEq, Repr

/-- Modelled from the spec: an ordered collection of categories
(`tagmatic.core.category.CategorySet`); uniqueness of names is enforced by
the constructor function `mkCategorySet`. -/
structure CategorySet where
  categories : List Category
deriving DecidableEq, Repr

/-- The names of the categories, in insertion order. -/
def CategorySet.names (cs : CategorySet) : List String :=
  cs.categories.map Category.name

/-- Modelled from the spec: the validation error CategorySet construction
raises (spec section 7, error kind ConfigurationError). -/
inductive ConfigurationError where
  | emptyCategorySet : ConfigurationError
  | duplicateName : String → ConfigurationError
deriving DecidableEq, Repr

/-- First name that occurs twice in the list, if any (case-sensitive). -/
def findDuplicate : List String → Option String
  | [] => none
  | n :: rest => if n ∈ rest then some n else findDuplicate rest

/-- Modelled from the spec: CategorySet construction; fails on an empty list
or on two entries sharing a name (case-sensitive), otherwise keeps the
entries in insertion order. -/
def mkCategorySet (cats : List Category) : Except ConfigurationError CategorySet :=
  if cats.isEmpty then .error .emptyCategorySet
  else
    match findDuplicate (cats.map Category.name) with
    | some n => .error (.duplicateName n)
    | none => .ok ⟨cats⟩

/-- The sentinel category name returned when no valid category could be
determined. -/
def unknownCategory : String := "unknown"

/-- Modelled from the spec: the structured result returned to callers
(`ClassificationResult`). -/
structure ClassificationResult where
  category : String
  confidence : Frac
  raw_response : Option String
  vote_distribution : Option (List (String × Nat))
deriving DecidableEq, Repr

/-- Modelled from the spec: the outcome of one call to the injected LLM
client; either completion text or a transport/provider failure. -/
inductive LLMResponse where
  | ok : String → LLMResponse
  | failure : LLMResponse
deriving DecidableEq, Repr

/-- Modelled from the spec: the structured error single-shot classification
raises in strict mode, and the aggregate failure of a voting call. -/
inductive ClassificationError where
  | providerError : ClassificationError
  | parseError : String → ClassificationError
  | aggregateFailure : ClassificationError
deriving DecidableEq, Repr

/-- Strict or lenient failure handling, decided by configuration; the
default is lenient. -/
inductive ErrorMode where
  | strict : ErrorMode
  | lenient : ErrorMode
deriving DecidableEq, Repr

/-! ### Response parsing

The wire-level contract: two labeled lines, `category: <name>` and
`confidence: <float>`, newline-separated, case-insensitive label matching.
Implemented over character lists so that everything kernel-reduces. -/

/-- Split a character list at every occurrence of `sep` (accumulator holds
the current segment reversed). -/
def splitOnCharAux (sep : Char) : List Char → List Char → List (List Char)
  | [], acc => [acc.reverse]
  | c :: cs, acc =>
    if c = sep then acc.reverse :: splitOnCharAux sep cs []
    else splitOnCharAux sep cs (c :: acc)

/-- Split a character list at every occurrence of `sep`. -/
def splitOnChar (sep : Char) (l : List Char) : List (List Char) :=
  splitOnCharAux sep l []

/-- Drop whitespace from both ends. -/
def trimChars (l : List Char) : List Char :=
  ((l.dropWhile Char.isWhitespace).reverse.dropWhile Char.isWhitespace).reverse

/-- ASCII-lowercased character code. -/
def lowerCode (c : Char) : Nat :=
  if 65 ≤ c.toNat ∧ c.toNat ≤ 90 then c.toNat + 32 else c.toNat

/-- Match a (lowercase) label pattern case-insensitively at the head of a
line; returns the rest of the line after the label. -/
def stripLabelCI : List Char → List Char → Option (List Char)
  | [], rest => some rest
  | _ :: _, [] => none
  | p :: ps, c :: cs => if lowerCode c = p.toNat then stripLabelCI ps cs else none

/-- Digits to a natural number; fails on a non-digit. -/
def charsToNatAux : List Char → Nat → Option Nat
  | [], acc => some acc
  | c :: cs, acc =>
    if c.isDigit then charsToNatAux cs (acc * 10 + (c.toNat - 48)) else none

/-- A nonempty all-digit character list as a natural number. -/
def charsToNat : List Char → Option Nat
  | [] => none
  | l => charsToNatAux l 0

/-- Modelled from the spec: parse the confidence field, a decimal literal
`<digits>` or `<digits>.<digits>`; anything else (sign, empty part,
stray characters) is rejected. -/
def parseConfidence (l : List Char) : Option Frac :=
  match splitOnChar '.' l with
  | [w] => (charsToNat w).map (fun n => ⟨n, 1⟩)
  | [w, f] =>
    match charsToNat w, charsToNat f with
    | some wn, some fn => some ⟨wn * 10 ^ f.length + fn, 10 ^ f.length⟩
    | _, _ => none
  | _ => none

/-- Modelled from the spec: the Single-Shot Classifier parser. Scans the
newline-separated lines of the response for the labeled lines
`category: <name>` and `confidence: <float>` (labels matched
case-insensitively, values trimmed); rejects the response when either
line is missing or the confidence is not a decimal literal. -/
def parseResponse (text : String) : Option (String × Frac) :=
  match (splitOnChar '\n' text.data).findSome?
          (fun l => stripLabelCI "category:".data (trimChars l)),
        (splitOnChar '\n' text.data).findSome?
          (fun l => stripLabelCI "confidence:".data (trimChars l)) with
  | some nameChars, some confChars =>
    match parseConfidence (trimChars confChars) with
    | some f => some (String.mk (trimChars nameChars), f)
    | none => none
  | _, _ => none

/-! ### Single-shot classification -/

/-- Modelled from the spec: parse and validate one LLM response against the
category set; `some` exactly when the response parses, the parsed name is a
member of the category set, and the confidence lies in [0,1]. -/
def attemptClassify (cs : CategorySet) (resp : LLMResponse) : Option ClassificationResult :=
  match resp with
  | .failure => none
  | .ok text =>
    match parseResponse text with
    | some (name, conf) =>
      if name ∈ cs.names ∧ conf.num ≤ conf.den then
        some ⟨name, conf, some text, none⟩
      else none
    | none => none

/-- The raw response carried for diagnostics, when there is one. -/
def rawOf : LLMResponse → Option String
  | .ok text => some text
  | .failure => none

/-- The structured error a failed single-shot call raises in strict mode:
a provider error for a failed LLM call, a parse error otherwise. -/
def failureOf : LLMResponse → ClassificationError
  | .ok text => .parseError text
  | .failure => .providerError

/-- The sentinel result returned on a failed round in lenient mode. -/
def unknownResult (raw : Option String) : ClassificationResult :=
  ⟨unknownCategory, Frac.zero, raw, none⟩

/-- Modelled from the spec: single-shot classification of one LLM response.
On validation failure the lenient mode returns the unknown sentinel with
confidence 0.0 carrying the raw response; the strict mode raises a
structured ClassificationError. -/
def singleShotClassify (cs : CategorySet) (mode : ErrorMode) (resp : LLMResponse) :
    Except ClassificationError ClassificationResult :=
  match attemptClassify cs resp with
  | some r => .ok r
  | none =>
    match mode with
    | .lenient => .ok (unknownResult (rawOf resp))
    | .strict => .error (failureOf resp)

/-- One voting round: single-shot classification with failures captured as
unknown-sentinel results, never propagated. -/
def classifyRound (cs : CategorySet) (resp : LLMResponse) : ClassificationResult :=
  match attemptClassify cs resp with
  | some r => r
  | none => unknownResult (rawOf resp)

/-! ### Voting classification -/

/-- The per-round results of a voting call. -/
def roundResults (cs : CategorySet) (resps : List LLMResponse) : List ClassificationResult :=
  resps.map (classifyRound cs)

/-- The successful (non-unknown) round results. -/
def successfulResults (results : List ClassificationResult) : List ClassificationResult :=
  results.filter (fun r => r.category != unknownCategory)

/-- The successful round results that voted for `name`. -/
def votesFor (results : List ClassificationResult) (name : String) : List ClassificationResult :=
  (successfulResults results).filter (fun r => r.category == name)

/-- The tally: one vote per successful round result, for its category name. -/
def tallyVotes (results : List ClassificationResult) (name : String) : Nat :=
  (votesFor results name).length

/-- The exact sum of the confidences of the votes for `name`. -/
def confSum (results : List ClassificationResult) (name : String) : Frac :=
  ((votesFor results name).map (fun r => r.confidence)).foldl Frac.add Frac.zero

/-- Modelled from the spec: whether `cand` beats `best` in winner
resolution: strictly more votes, or equally many votes and a strictly
higher summed (equivalently, averaged) confidence. -/
def beats (results : List ClassificationResult) (cand best : Category) : Bool :=
  decide (tallyVotes results best.name < tallyVotes results cand.name) ||
    (decide (tallyVotes results best.name = tallyVotes results cand.name) &&
      Frac.blt (confSum results best.name) (confSum results cand.name))

/-- Modelled from the spec: winner resolution. Scans the categories in
CategorySet order keeping the current best, replacing it only on a strict
improvement, so on a full tie the earliest category wins. -/
def pickWinner (results : List ClassificationResult) : List Category → Option Category
  | [] => none
  | c :: rest =>
    some (rest.foldl (fun best cand => if beats results cand best then cand else best) c)

/-- The vote distribution exposed for transparency: each category that
received a vote, with its vote count, in CategorySet order. -/
def voteDistribution (cs : CategorySet) (results : List ClassificationResult) :
    List (String × Nat) :=
  cs.categories.filterMap (fun c =>
    if tallyVotes results c.name = 0 then none
    else some (c.name, tallyVotes results c.name))

/-- Modelled from the spec: tally the round results and resolve the winner.
If every round returned the unknown sentinel the call is an aggregate
failure: the lenient mode returns the unknown sentinel with confidence 0.0,
the strict mode raises AggregateFailure. Otherwise the winner is resolved
by `pickWinner` and the aggregate confidence is votes for the winner over
rounds attempted. -/
def aggregateVotes (cs : CategorySet) (mode : ErrorMode) (results : List ClassificationResult) :
    Except ClassificationError ClassificationResult :=
  if (successfulResults results).isEmpty then
    match mode with
    | .lenient => .ok ⟨unknownCategory, Frac.zero, none, some (voteDistribution cs results)⟩
    | .strict => .error .aggregateFailure
  else
    match pickWinner results cs.categories with
    | some w =>
      .ok ⟨w.name, ⟨tallyVotes results w.name, results.length⟩, none,
        some (voteDistribution cs results)⟩
    | none =>
      match mode with
      | .lenient => .ok ⟨unknownCategory, Frac.zero, none, some (voteDistribution cs results)⟩
      | .strict => .error .aggregateFailure

/-- Modelled from the spec: the Voting Classifier; runs one round per
response, tallies and aggregates. -/
def votingClassify (cs : CategorySet) (mode : ErrorMode) (resps : List LLMResponse) :
    Except ClassificationError ClassificationResult :=
  aggregateVotes cs mode (roundResults cs resps)

/-- Modelled from the spec and the notebook call sites: a classifier bound
at construction to its category set and LLM client (the client is an
oracle from input text and round index to a response). -/
structure Classifier where
  categories : CategorySet
  llm : String → Nat → LLMResponse

/-- Modelled from the spec and the notebook call sites: the single public
classify method; keyword parameters select voting
(voting_classifier, voting_rounds), defaulting to single-shot lenient
classification. -/
def Classifier.classify (clf : Classifier) (text : String)
    (voting_classifier : optParam Bool false) (voting_rounds : optParam Nat 3)
    (mode : optParam ErrorMode ErrorMode.lenient) :
    Except ClassificationError ClassificationResult :=
  if voting_classifier then
    votingClassify clf.categories mode ((List.range voting_rounds).map (clf.llm text))
  else
    singleShotClassify clf.categories mode (clf.llm text 0)

/-! ### Concrete fixtures

The category set of the demo notebook and the mocked responses of the
testable properties in the spec. -/

/-- The five complaint categories defined in the demo notebook (descriptions
abridged; only names take part in the logic). -/
def csComplaints : CategorySet :=
  ⟨[⟨"account_information_error", "incorrect account information on credit reports", []⟩,
    ⟨"debt_not_owed", "the consumer claims they do not owe the debt being collected", []⟩,
    ⟨"account_status_wrong", "incorrect account status reporting", []⟩,
    ⟨"identity_mix_up", "identity theft or information belonging to someone else", []⟩,
    ⟨"privacy_issues", "improper sharing or handling of personal information", []⟩]⟩

/-- The mocked LLM response of the single-shot testable property. -/
def demoResponse : String := "category: debt_not_owed\nconfidence: 0.82"

/-- A two-category set for the voting testable properties. -/
def csVote : CategorySet :=
  ⟨[⟨"cat_a", "category a", []⟩, ⟨"cat_b", "category b", []⟩]⟩

/-- Mocked rounds cat_a, cat_a, cat_b of the majority testable property. -/
def respsMajority : List LLMResponse :=
  [.ok "category: cat_a\nconfidence: 0.9", .ok "category: cat_a\nconfidence: 0.8",
   .ok "category: cat_b\nconfidence: 0.7"]

/-- Mocked tied rounds: one vote each for cat_a (0.9) and cat_b (0.6). -/
def respsTie : List LLMResponse :=
  [.ok "category: cat_a\nconfidence: 0.9", .ok "category: cat_b\nconfidence: 0.6"]

/-- Mocked rounds that all fail to produce a validated category. -/
def respsAllFail : List LLMResponse := [.ok "no labels here", .failure]

/-- A mocked response naming a category absent from the notebook set. -/
def respAbsent : LLMResponse := .ok "category: refund_request\nconfidence: 0.95"

/-! ### Basic lemmas -/

/-- findDuplicate finds nothing exactly on a duplicate-free list. -/
theorem findDuplicate_eq_none_iff (ns : List String) : findDuplicate ns = none ↔ ns.Nodup := by
  induction ns with
  | nil => simp [findDuplicate]
  | cons n rest ih =>
    rcases Decidable.em (n ∈ rest) with h | h
    · simp [findDuplicate, h, List.nodup_cons]
    · simp [findDuplicate, h, List.nodup_cons, ih]

/-- A parsed confidence has a positive denominator. -/
theorem parseConfidence_pos {l : List Char} {f : Frac} (h : parseConfidence l = some f) :
    0 < f.den := by
  unfold parseConfidence at h
  split at h
  · rcases Option.map_eq_some'.mp h with ⟨n, _, hf⟩
    rw [← hf]
    exact Nat.one_pos
  · split at h
    · cases h
      exact Nat.pos_pow_of_pos _ (by norm_num)
    · exact absurd h (by simp)
  · exact absurd h (by simp)

/-- A parsed response has a positive confidence denominator. -/
theorem parseResponse_pos {text : String} {name : String} {conf : Frac}
    (h : parseResponse text = some (name, conf)) : 0 < conf.den := by
  unfold parseResponse at h
  split at h
  · split at h
    · cases h
      exact parseConfidence_pos (by assumption)
    · exact absurd h (by simp)
  · exact absurd h (by simp)

/-- What a successfully validated single-shot result looks like: a member
category name, a confidence within range, and the raw response attached. -/
theorem attemptClassify_spec {cs : CategorySet} {resp : LLMResponse} {r : ClassificationResult}
    (h : attemptClassify cs resp = some r) :
    r.category ∈ cs.names ∧ r.confidence.num ≤ r.confidence.den ∧
      0 < r.confidence.den ∧ r.raw_response = rawOf resp := by
  unfold attemptClassify at h
  split at h
  · exact absurd h (by simp)
  · rename_i text
    split at h
    · rename_i p hp
      split at h
      · rename_i hcond
        cases h
        exact ⟨hcond.1, hcond.2, parseResponse_pos hp, rfl⟩
      · exact absurd h (by simp)
    · exact absurd h (by simp)

/-- Lenient single-shot classification never raises: it returns exactly the
round result. -/
theorem singleShot_lenient_eq (cs : CategorySet) (resp : LLMResponse) :
    singleShotClassify cs .lenient resp = .ok (classifyRound cs resp) := by
  unfold singleShotClassify classifyRound
  split <;> rfl

/-- The shape invariant of every round result: either the unknown sentinel
with confidence zero, or a validated member category with a confidence
within range. -/
def GoodResult (cs : CategorySet) (r : ClassificationResult) : Prop :=
  (r.category = unknownCategory ∧ r.confidence = Frac.zero) ∨
    (r.category ∈ cs.names ∧ r.confidence.num ≤ r.confidence.den ∧ 0 < r.confidence.den)

/-- Every round result is a good result. -/
theorem classifyRound_good (cs : CategorySet) (resp : LLMResponse) :
    GoodResult cs (classifyRound cs resp) := by
  unfold classifyRound
  split
  · rename_i r h
    have hs := attemptClassify_spec h
    exact Or.inr ⟨hs.1, hs.2.1, hs.2.2.1⟩
  · exact Or.inl ⟨rfl, rfl⟩

/-- A good result has its numeric confidence in [0,1]. -/
theorem GoodResult.conf_bounds {cs : CategorySet} {r : ClassificationResult}
    (h : GoodResult cs r) : 0 ≤ r.confidence.toRat ∧ r.confidence.toRat ≤ 1 := by
  have h0 : (0 : ℚ) ≤ r.confidence.toRat :=
    div_nonneg (by positivity) (by positivity)
  rcases h with ⟨_, hc⟩ | ⟨_, hle, _⟩
  · rw [hc]
    norm_num [Frac.toRat, Frac.zero]
  · exact ⟨h0, div_le_one_of_le₀ (by exact_mod_cast hle) (by positivity)⟩

/-- A fold that always keeps one of its two arguments lands on the seed or
a list element. -/
theorem foldl_choice_mem {α : Type} (f : α → α → α) (hf : ∀ a b, f a b = a ∨ f a b = b)
    (l : List α) (b : α) : l.foldl f b ∈ b :: l := by
  induction l generalizing b with
  | nil => simp
  | cons c t ih =>
    rw [List.foldl_cons]
    rcases List.mem_cons.mp (ih (f b c)) with h1 | h1
    · rw [h1]
      rcases hf b c with h | h <;> rw [h] <;> simp
    · simp [h1]

/-- A resolved winner is one of the listed categories. -/
theorem pickWinner_mem {results : List ClassificationResult} {cats : List Category}
    {w : Category} (h : pickWinner results cats = some w) : w ∈ cats := by
  cases cats with
  | nil => cases h
  | cons c rest =>
    cases h
    exact foldl_choice_mem _
      (fun a b => by
        by_cases hb : beats results b a = true
        · exact Or.inr (if_pos hb)
        · exact Or.inl (if_neg hb)) rest c

/-- The tally of any name never exceeds the number of rounds. -/
theorem tallyVotes_le_length (results : List ClassificationResult) (name : String) :
    tallyVotes results name ≤ results.length :=
  Nat.le_trans (List.length_filter_le _ _) (List.length_filter_le _ _)

/-- Modelled from the spec: the single-shot validation failure condition —
the LLM call failed, the response did not parse into the two labeled
fields, the parsed name is absent from the category set, or the confidence
is out of range. -/
def validationFails (cs : CategorySet) (resp : LLMResponse) : Bool :=
  match resp with
  | .failure => true
  | .ok text =>
    match parseResponse text with
    | none => true
    | some (name, conf) => !(decide (name ∈ cs.names)) || !(decide (conf.num ≤ conf.den))

/-- A failing validation means no validated result. -/
theorem validationFails_attempt {cs : CategorySet} {resp : LLMResponse}
    (h : validationFails cs resp = true) : attemptClassify cs resp = none := by
  cases resp with
  | failure => rfl
  | ok text =>
    cases hp : parseResponse text with
    | none => simp [attemptClassify, hp]
    | some p =>
      obtain ⟨name, conf⟩ := p
      simp only [validationFails, hp, Bool.or_eq_true, Bool.not_eq_true',
        decide_eq_false_iff_not] at h
      simp only [attemptClassify, hp]
      rw [if_neg]
      rcases h with h | h
      · exact fun hc => h hc.1
      · exact fun hc => h hc.2

/-! ### Claims -/

/-- C8: CategorySet construction fails exactly when the list is empty or two
entries share a name under case-sensitive comparison (a condition on the
names alone, independent of descriptions); on success the entries are kept
in insertion order. -/
theorem category_set_construction_spec :
    ∀ cats : List Category,
      (mkCategorySet cats = .ok ⟨cats⟩ ↔ cats ≠ [] ∧ (cats.map Category.name).Nodup) ∧
      ((∃ e, mkCategorySet cats = .error e) ↔
        cats = [] ∨ ¬ (cats.map Category.name).Nodup) ∧
      (∀ cs, mkCategorySet cats = .ok cs → cs.categories = cats) := by
  intro cats
  by_cases he : cats = []
  · subst he
    refine ⟨?_, ?_, ?_⟩ <;> simp [mkCategorySet]
  · have he' : cats.isEmpty = false := by simpa [List.isEmpty_iff] using he
    cases hd : findDuplicate (cats.map Category.name) with
    | none =>
      have hnd : (cats.map Category.name).Nodup := (findDuplicate_eq_none_iff _).mp hd
      refine ⟨?_, ?_, ?_⟩
      · simp [mkCategorySet, he', hd, he, hnd]
      · simp [mkCategorySet, he', hd, he, hnd]
      · intro cs h
        simp only [mkCategorySet, he', Bool.false_eq_true, if_false, hd] at h
        cases h
        rfl
    | some n =>
      have hnd : ¬ (cats.map Category.name).Nodup := by
        intro hcon
        rw [← findDuplicate_eq_none_iff] at hcon
        simp [hd] at hcon
      refine ⟨?_, ?_, ?_⟩
      · simp [mkCategorySet, he', hd, he, hnd]
      · simp [mkCategorySet, he', hd, he, hnd]
      · intro cs h
        simp [mkCategorySet, he', hd] at h

/-- C5: whenever single-shot validation fails (provider failure, malformed
response, name absent from the category set, or confidence out of range),
the lenient mode returns the unknown sentinel with confidence 0.0 carrying
the raw response, and the strict mode raises a structured
ClassificationError. -/
theorem single_shot_validation_failure :
    ∀ (cs : CategorySet) (resp : LLMResponse),
      validationFails cs resp = true →
      singleShotClassify cs .lenient resp = .ok (unknownResult (rawOf resp)) ∧
      (unknownResult (rawOf resp)).category = unknownCategory ∧
      (unknownResult (rawOf resp)).confidence.toRat = 0 ∧
      singleShotClassify cs .strict resp = .error (failureOf resp) := by
  intro cs resp h
  have ha := validationFails_attempt h
  refine ⟨?_, rfl, by norm_num [unknownResult, Frac.toRat, Frac.zero], ?_⟩
  · simp [singleShotClassify, ha]
  · simp [singleShotClassify, ha]

/-- C7: every result of a single-shot or voting classification carries
either the unknown sentinel or a category name of the set it was produced
against, and its numeric confidence always lies in [0,1]. -/
theorem classification_result_invariants :
    (∀ (cs : CategorySet) (mode : ErrorMode) (resp : LLMResponse) (r : ClassificationResult),
        singleShotClassify cs mode resp = .ok r →
        (r.category = unknownCategory ∨ r.category ∈ cs.names) ∧
        0 ≤ r.confidence.toRat ∧ r.confidence.toRat ≤ 1) ∧
    (∀ (cs : CategorySet) (mode : ErrorMode) (resps : List LLMResponse)
        (r : ClassificationResult),
        votingClassify cs mode resps = .ok r →
        (r.category = unknownCategory ∨ r.category ∈ cs.names) ∧
        0 ≤ r.confidence.toRat ∧ r.confidence.toRat ≤ 1) := by
  constructor
  · intro cs mode resp r h
    unfold singleShotClassify at h
    split at h
    · rename_i r' ha
      cases h
      have hs := attemptClassify_spec ha
      have hb := @GoodResult.conf_bounds cs _ (Or.inr ⟨hs.1, hs.2.1, hs.2.2.1⟩)
      exact ⟨Or.inr hs.1, hb.1, hb.2⟩
    · split at h
      · cases h
        exact ⟨Or.inl rfl, by norm_num [unknownResult, Frac.toRat, Frac.zero]⟩
      · simp at h
  · intro cs mode resps r h
    unfold votingClassify aggregateVotes at h
    split at h
    · split at h
      · cases h
        exact ⟨Or.inl rfl, by norm_num [Frac.toRat, Frac.zero]⟩
      · simp at h
    · split at h
      · rename_i w hw
        cases h
        refine ⟨Or.inr (List.mem_map_of_mem _ (pickWinner_mem hw)), ?_, ?_⟩
        · exact div_nonneg (by positivity) (by positivity)
        · exact div_le_one_of_le₀ (by exact_mod_cast tallyVotes_le_length _ _) (by positivity)
      · split at h
        · cases h
          exact ⟨Or.inl rfl, by norm_num [Frac.toRat, Frac.zero]⟩
        · simp at h

/-- C4: when every round of a voting call returns the unknown sentinel, the
lenient mode returns the unknown sentinel with confidence 0.0 and the
strict mode raises AggregateFailure; no category is ever fabricated. -/
theorem voting_all_unknown :
    ∀ (cs : CategorySet) (resps : List LLMResponse),
      (∀ r ∈ roundResults cs resps, r.category = unknownCategory) →
      (∃ res, votingClassify cs .lenient resps = .ok res ∧
        res.category = unknownCategory ∧ res.confidence = Frac.zero ∧
        res.confidence.toRat = 0) ∧
      votingClassify cs .strict resps = .error .aggregateFailure := by
  intro cs resps hall
  have hnil : successfulResults (roundResults cs resps) = [] := by
    rw [successfulResults, List.filter_eq_nil_iff]
    intro r hr
    simp [bne_iff_ne, hall r hr]
  have hEmpty : (successfulResults (roundResults cs resps)).isEmpty = true := by
    simp [hnil]
  have hval : votingClassify cs .lenient resps =
      .ok ⟨unknownCategory, Frac.zero, none,
        some (voteDistribution cs (roundResults cs resps))⟩ := by
    unfold votingClassify aggregateVotes
    rw [if_pos hEmpty]
  constructor
  · exact ⟨_, hval, rfl, rfl, by norm_num [Frac.toRat, Frac.zero]⟩
  · unfold votingClassify aggregateVotes
    rw [if_pos hEmpty]

/-- The cross-multiplication comparison agrees with the numeric order on
fractions with positive denominators. -/
theorem Frac.blt_iff {x y : Frac} (hx : 0 < x.den) (hy : 0 < y.den) :
    Frac.blt x y = true ↔ x.toRat < y.toRat := by
  unfold Frac.blt
  rw [Frac.toRat, Frac.toRat, div_lt_div_iff₀ (by exact_mod_cast hx) (by exact_mod_cast hy)]
  simp only [decide_eq_true_eq]
  exact ⟨fun h => by exact_mod_cast h, fun h => by exact_mod_cast h⟩

/-- Exact addition of fractions with positive denominators is addition of
their values. -/
theorem Frac.add_toRat {x y : Frac} (hx : 0 < x.den) (hy : 0 < y.den) :
    (Frac.add x y).toRat = x.toRat + y.toRat := by
  have hx' : ((x.den : ℚ)) ≠ 0 := Nat.cast_ne_zero.mpr (Nat.pos_iff_ne_zero.mp hx)
  have hy' : ((y.den : ℚ)) ≠ 0 := Nat.cast_ne_zero.mpr (Nat.pos_iff_ne_zero.mp hy)
  simp only [Frac.add, Frac.toRat]
  push_cast
  rw [div_add_div _ _ hx' hy']
  congr 1
  ring

/-- Folding exact addition over fractions with positive denominators keeps
the denominator positive and sums the values. -/
theorem foldl_add_den_pos_toRat :
    ∀ (l : List Frac) (z : Frac), 0 < z.den → (∀ f ∈ l, 0 < f.den) →
      0 < (l.foldl Frac.add z).den ∧
      (l.foldl Frac.add z).toRat = z.toRat + (l.map Frac.toRat).sum := by
  intro l
  induction l with
  | nil =>
    intro z hz _
    exact ⟨hz, by simp⟩
  | cons f t ih =>
    intro z hz hl
    rw [List.foldl_cons]
    have hf : 0 < f.den := hl f (List.mem_cons_self _ _)
    have hzf : 0 < (Frac.add z f).den := by
      simp only [Frac.add]
      exact Nat.mul_pos hz hf
    obtain ⟨h1, h2⟩ := ih (Frac.add z f) hzf (fun g hg => hl g (List.mem_cons_of_mem _ hg))
    refine ⟨h1, ?_⟩
    rw [h2, Frac.add_toRat hz hf]
    simp [add_assoc]

/-- A vote for a name is one of the round results. -/
theorem votesFor_mem {results : List ClassificationResult} {name : String}
    {r : ClassificationResult} (h : r ∈ votesFor results name) : r ∈ results :=
  (List.mem_filter.mp (List.mem_filter.mp h).1).1

/-- The confidence sum keeps a positive denominator. -/
theorem confSum_den_pos (results : List ClassificationResult) (name : String)
    (h : ∀ r ∈ results, 0 < r.confidence.den) : 0 < (confSum results name).den := by
  refine (foldl_add_den_pos_toRat _ Frac.zero (by norm_num [Frac.zero]) ?_).1
  intro f hf
  rcases List.mem_map.mp hf with ⟨r, hr, hrf⟩
  exact hrf ▸ h r (votesFor_mem hr)

/-- The value of the confidence sum is the sum of the vote confidences. -/
theorem confSum_toRat (results : List ClassificationResult) (name : String)
    (h : ∀ r ∈ results, 0 < r.confidence.den) :
    (confSum results name).toRat =
      ((votesFor results name).map (fun r => r.confidence.toRat)).sum := by
  have hs := (foldl_add_den_pos_toRat ((votesFor results name).map (fun r => r.confidence))
    Frac.zero (by norm_num [Frac.zero]) (by
      intro f hf
      rcases List.mem_map.mp hf with ⟨r, hr, hrf⟩
      exact hrf ▸ h r (votesFor_mem hr))).2
  have h0 : Frac.zero.toRat = 0 := by norm_num [Frac.zero, Frac.toRat]
  rw [confSum, hs, h0, zero_add, List.map_map]
  rfl

/-- Modelled from the spec: the average of the LLM-reported confidences
among the votes for a name (zero when there is no vote). -/
def avgConfidence (results : List ClassificationResult) (name : String) : ℚ :=
  ((votesFor results name).map (fun r => r.confidence.toRat)).sum /
    (tallyVotes results name : ℚ)

/-- A name without votes has the zero confidence sum. -/
theorem tally_zero_confSum {results : List ClassificationResult} {name : String}
    (h : tallyVotes results name = 0) : confSum results name = Frac.zero := by
  have hv : votesFor results name = [] := List.length_eq_zero.mp h
  rw [confSum, hv]
  rfl

/-- Among names with equal tallies, comparing summed confidences is
comparing average confidences. -/
theorem confSum_vs_avg {results : List ClassificationResult}
    (hpos : ∀ r ∈ results, 0 < r.confidence.den) {a b : String}
    (ht : tallyVotes results a = tallyVotes results b) :
    ((confSum results a).toRat < (confSum results b).toRat ↔
      avgConfidence results a < avgConfidence results b) ∧
    ((confSum results a).toRat ≤ (confSum results b).toRat ↔
      avgConfidence results a ≤ avgConfidence results b) := by
  rw [avgConfidence, avgConfidence, ← confSum_toRat results a hpos,
    ← confSum_toRat results b hpos, ht]
  rcases Nat.eq_zero_or_pos (tallyVotes results b) with h0 | hp
  · have ha0 : tallyVotes results a = 0 := ht.trans h0
    rw [tally_zero_confSum ha0, tally_zero_confSum h0]
    norm_num
  · have hq : (0:ℚ) < (tallyVotes results b : ℚ) := by exact_mod_cast hp
    exact ⟨(div_lt_div_iff_of_pos_right hq).symm, (div_le_div_iff_of_pos_right hq).symm⟩

/-- The lexicographic key winner resolution maximizes: vote count first,
then summed confidence. -/
def winnerKey (results : List ClassificationResult) (c : Category) : ℕ ×ₗ ℚ :=
  toLex (tallyVotes results c.name, (confSum results c.name).toRat)

/-- On round results with positive confidence denominators, the head-to-head
comparison is the strict lexicographic key comparison. -/
theorem beats_eq_keyLt (results : List ClassificationResult)
    (h : ∀ r ∈ results, 0 < r.confidence.den) (cand best : Category) :
    beats results cand best = decide (winnerKey results best < winnerKey results cand) := by
  rw [Bool.eq_iff_iff]
  simp only [decide_eq_true_eq, winnerKey, Prod.Lex.lt_iff]
  unfold beats
  simp only [Bool.or_eq_true, Bool.and_eq_true, decide_eq_true_eq,
    Frac.blt_iff (confSum_den_pos results best.name h) (confSum_den_pos results cand.name h)]

/-- One step of first-maximum selection by a key. -/
def argmaxStep {α β : Type} [LinearOrder β] (key : α → β) (best cand : α) : α :=
  if key best < key cand then cand else best

/-- Folding first-maximum selection lands on the first key-maximal element:
everything before it is strictly smaller, everything after it no larger. -/
theorem argmax_first {α β : Type} [LinearOrder β] (key : α → β) :
    ∀ (l : List α) (b : α), ∃ l1 l2,
      b :: l = l1 ++ (l.foldl (argmaxStep key) b) :: l2 ∧
      (∀ x ∈ l1, key x < key (l.foldl (argmaxStep key) b)) ∧
      (∀ x ∈ l2, key x ≤ key (l.foldl (argmaxStep key) b)) := by
  intro l
  induction l with
  | nil =>
    intro b
    exact ⟨[], [], by simp, by simp, by simp⟩
  | cons c t ih =>
    intro b
    rw [List.foldl_cons]
    by_cases hlt : key b < key c
    · rw [show argmaxStep key b c = c from if_pos hlt]
      obtain ⟨l1, l2, hdec, h1, h2⟩ := ih c
      refine ⟨b :: l1, l2, ?_, ?_, h2⟩
      · rw [List.cons_append, ← hdec]
      · intro x hx
        rcases List.mem_cons.mp hx with hx | hx
        · subst hx
          have hcr : key c ≤ key (t.foldl (argmaxStep key) c) := by
            cases l1 with
            | nil =>
              have hc : c = t.foldl (argmaxStep key) c := by
                have hh := hdec
                rw [List.nil_append] at hh
                exact (List.cons_eq_cons.mp hh).1
              rw [← hc]
            | cons a l1' =>
              have hh := hdec
              rw [List.cons_append] at hh
              have ha : c = a := (List.cons_eq_cons.mp hh).1
              exact le_of_lt (ha ▸ h1 a (List.mem_cons_self _ _))
          exact lt_of_lt_of_le hlt hcr
        · exact h1 x hx
    · rw [show argmaxStep key b c = b from if_neg hlt]
      obtain ⟨l1, l2, hdec, h1, h2⟩ := ih b
      cases l1 with
      | nil =>
        rw [List.nil_append] at hdec
        have hb : b = t.foldl (argmaxStep key) b := (List.cons_eq_cons.mp hdec).1
        have hteq : t = l2 := (List.cons_eq_cons.mp hdec).2
        refine ⟨[], c :: t, ?_, by simp, ?_⟩
        · rw [List.nil_append, ← hb]
        · intro x hx
          rcases List.mem_cons.mp hx with hx | hx
          · subst hx
            exact le_of_not_lt (hb ▸ hlt)
          · exact h2 x (hteq ▸ hx)
      | cons a l1' =>
        rw [List.cons_append] at hdec
        have hba : b = a := (List.cons_eq_cons.mp hdec).1
        have hteq : t = l1' ++ (t.foldl (argmaxStep key) b) :: l2 :=
          (List.cons_eq_cons.mp hdec).2
        refine ⟨b :: c :: l1', l2, ?_, ?_, h2⟩
        · rw [List.cons_append, List.cons_append, ← hteq]
        · intro x hx
          have hbr : key b < key (t.foldl (argmaxStep key) b) :=
            hba ▸ h1 a (List.mem_cons_self _ _)
          rcases List.mem_cons.mp hx with hx | hx
          · subst hx
            exact hbr
          rcases List.mem_cons.mp hx with hx | hx
          · subst hx
            exact lt_of_le_of_lt (le_of_not_lt hlt) hbr
          · exact h1 x (List.mem_cons_of_mem _ hx)

/-- The resolved winner is the first key-maximal category of the list. -/
theorem pickWinner_spec {results : List ClassificationResult}
    (h : ∀ r ∈ results, 0 < r.confidence.den) {cats : List Category} {w : Category}
    (hw : pickWinner results cats = some w) :
    ∃ l1 l2, cats = l1 ++ w :: l2 ∧
      (∀ c ∈ l1, winnerKey results c < winnerKey results w) ∧
      (∀ c ∈ l2, winnerKey results c ≤ winnerKey results w) := by
  cases cats with
  | nil => cases hw
  | cons c rest =>
    have hfun : (fun best cand => if beats results cand best then cand else best) =
        argmaxStep (winnerKey results) := by
      funext best cand
      rw [argmaxStep, beats_eq_keyLt results h]
      by_cases hk : winnerKey results best < winnerKey results cand
      · simp [hk]
      · simp [hk]
    rw [pickWinner, hfun, Option.some_inj] at hw
    obtain ⟨l1, l2, hdec, h1, h2⟩ := argmax_first (winnerKey results) rest c
    rw [hw] at hdec h1 h2
    exact ⟨l1, l2, hdec, h1, h2⟩

/-- Round results have positive confidence denominators. -/
theorem roundResults_den_pos (cs : CategorySet) (resps : List LLMResponse) :
    ∀ r ∈ roundResults cs resps, 0 < r.confidence.den := by
  intro r hr
  rcases List.mem_map.mp hr with ⟨resp, _, hrr⟩
  rcases hrr ▸ classifyRound_good cs resp with ⟨_, hc⟩ | ⟨_, _, hp⟩
  · rw [hc]
    norm_num [Frac.zero]
  · exact hp

/-- C1: whenever at least one round of a voting call produced a non-unknown
category, the call returns a result whose aggregate confidence is exactly
(votes for the returned category) over (rounds attempted), derived from the
vote counts, and the full vote distribution is exposed. -/
theorem voting_confidence_votes_over_rounds :
    ∀ (cs : CategorySet) (mode : ErrorMode) (resps : List LLMResponse),
      (∃ r ∈ roundResults cs resps, r.category ≠ unknownCategory) →
      ∃ res, votingClassify cs mode resps = .ok res ∧
        res.confidence = ⟨tallyVotes (roundResults cs resps) res.category, resps.length⟩ ∧
        res.confidence.toRat =
          (tallyVotes (roundResults cs resps) res.category : ℚ) / (resps.length : ℚ) ∧
        res.vote_distribution = some (voteDistribution cs (roundResults cs resps)) := by
  intro cs mode resps h
  obtain ⟨r, hr, hne⟩ := h
  have hlen : (roundResults cs resps).length = resps.length := List.length_map _ _
  have hmem : r ∈ successfulResults (roundResults cs resps) :=
    List.mem_filter.mpr ⟨hr, by simp [bne_iff_ne, hne]⟩
  have hEmpty : (successfulResults (roundResults cs resps)).isEmpty = false := by
    simp [List.isEmpty_eq_false]
    exact List.ne_nil_of_mem hmem
  obtain ⟨c, rest, hcats⟩ : ∃ c rest, cs.categories = c :: rest := by
    rcases List.mem_map.mp hr with ⟨resp, _, hrr⟩
    have hg : GoodResult cs r := hrr ▸ classifyRound_good cs resp
    rcases hg with ⟨hu, _⟩ | ⟨hm, _⟩
    · exact absurd hu hne
    · cases hcs : cs.categories with
      | nil =>
        rw [CategorySet.names, hcs] at hm
        simp at hm
      | cons c rest => exact ⟨c, rest, rfl⟩
  have hval : votingClassify cs mode resps =
      .ok ⟨(rest.foldl (fun best cand =>
              if beats (roundResults cs resps) cand best then cand else best) c).name,
        ⟨tallyVotes (roundResults cs resps)
            (rest.foldl (fun best cand =>
              if beats (roundResults cs resps) cand best then cand else best) c).name,
          (roundResults cs resps).length⟩, none,
        some (voteDistribution cs (roundResults cs resps))⟩ := by
    unfold votingClassify aggregateVotes
    rw [if_neg (by simp [hEmpty]), hcats]
    rfl
  refine ⟨_, hval, ?_, ?_, rfl⟩
  · rw [hlen]
  · simp [Frac.toRat, hlen]

/-- C1 witness: rounds cat_a, cat_a, cat_b resolve to cat_a with confidence
2/3 and vote distribution cat_a two votes, cat_b one vote. -/
theorem voting_confidence_votes_over_rounds_witness :
    (∃ r ∈ roundResults csVote respsMajority, r.category ≠ unknownCategory) ∧
    (∃ res, votingClassify csVote .lenient respsMajority = .ok res ∧
      res.confidence =
        ⟨tallyVotes (roundResults csVote respsMajority) res.category, respsMajority.length⟩ ∧
      res.confidence.toRat =
        (tallyVotes (roundResults csVote respsMajority) res.category : ℚ) /
          (respsMajority.length : ℚ) ∧
      res.vote_distribution = some (voteDistribution csVote (roundResults csVote respsMajority))) ∧
    votingClassify csVote .lenient respsMajority =
      .ok ⟨"cat_a", ⟨2, 3⟩, none, some [("cat_a", 2), ("cat_b", 1)]⟩ :=
  ⟨by decide, voting_confidence_votes_over_rounds csVote .lenient respsMajority (by decide),
    by decide⟩

/-- C4 witness: two rounds, one unparsable response and one provider
failure; the lenient call returns the unknown sentinel with confidence 0.0
and the strict call raises AggregateFailure. -/
theorem voting_all_unknown_witness :
    (∀ r ∈ roundResults csVote respsAllFail, r.category = unknownCategory) ∧
    ((∃ res, votingClassify csVote .lenient respsAllFail = .ok res ∧
        res.category = unknownCategory ∧ res.confidence = Frac.zero ∧
        res.confidence.toRat = 0) ∧
      votingClassify csVote .strict respsAllFail = .error .aggregateFailure) :=
  ⟨by decide, voting_all_unknown csVote respsAllFail (by decide)⟩

/-- C5 witness: a response naming a category absent from the notebook set
fails validation; lenient returns the unknown sentinel carrying the raw
response, strict raises a parse error. -/
theorem single_shot_validation_failure_witness :
    validationFails csComplaints respAbsent = true ∧
    (singleShotClassify csComplaints .lenient respAbsent =
        .ok (unknownResult (rawOf respAbsent)) ∧
      (unknownResult (rawOf respAbsent)).category = unknownCategory ∧
      (unknownResult (rawOf respAbsent)).confidence.toRat = 0 ∧
      singleShotClassify csComplaints .strict respAbsent = .error (failureOf respAbsent)) :=
  ⟨by decide, single_shot_validation_failure csComplaints respAbsent (by decide)⟩

/-- C3: the tally counts one vote per non-unknown round result for that
result's category name, a round that returned the unknown sentinel
contributes no vote to any tally, and the confidence denominator of a
resolved result is the total number of rounds attempted. -/
theorem voting_tally_counts :
    ∀ (cs : CategorySet) (resps : List LLMResponse) (name : String),
      (tallyVotes (roundResults cs resps) name =
        ((roundResults cs resps).filter
          (fun r => r.category == name && r.category != unknownCategory)).length) ∧
      tallyVotes (roundResults cs resps) unknownCategory = 0 ∧
      (∀ (mode : ErrorMode) (res : ClassificationResult),
        votingClassify cs mode resps = .ok res → res.category ≠ unknownCategory →
        res.confidence.den = resps.length) := by
  intro cs resps name
  refine ⟨?_, ?_, ?_⟩
  · simp [tallyVotes, votesFor, successfulResults, List.filter_filter]
  · rw [tallyVotes, votesFor, List.length_eq_zero, List.filter_eq_nil_iff]
    intro r hr
    have h2 := (List.mem_filter.mp hr).2
    simp only [bne_iff_ne, ne_eq, decide_eq_true_eq] at h2
    simp [h2]
  · intro mode res h hne
    unfold votingClassify aggregateVotes at h
    split at h
    · split at h
      · cases h
        exact absurd rfl hne
      · simp at h
    · split at h
      · cases h
        exact List.length_map _ _
      · split at h
        · cases h
          exact absurd rfl hne
        · simp at h

/-- The tie result of the tied testable property. -/
def tieResult : ClassificationResult :=
  ⟨"cat_a", ⟨1, 2⟩, none, some [("cat_a", 1), ("cat_b", 1)]⟩

/-- C2: the returned winner maximizes the vote count; among categories tied
at the winning vote count it has the highest average confidence, and among
categories tied on both the winner is the one appearing first in
CategorySet insertion order (every category placed before the winner is
strictly beaten, every one after it does not beat it), so the outcome is
deterministic given identical LLM outputs. -/
theorem voting_tiebreak_avg_then_order :
    ∀ (cs : CategorySet) (mode : ErrorMode) (resps : List LLMResponse)
      (res : ClassificationResult),
      votingClassify cs mode resps = .ok res → res.category ≠ unknownCategory →
      ∃ w l1 l2, cs.categories = l1 ++ w :: l2 ∧ res.category = w.name ∧
        (∀ c ∈ l1,
          tallyVotes (roundResults cs resps) c.name <
              tallyVotes (roundResults cs resps) w.name ∨
            (tallyVotes (roundResults cs resps) c.name =
                tallyVotes (roundResults cs resps) w.name ∧
              avgConfidence (roundResults cs resps) c.name <
                avgConfidence (roundResults cs resps) w.name)) ∧
        (∀ c ∈ l2,
          tallyVotes (roundResults cs resps) c.name <
              tallyVotes (roundResults cs resps) w.name ∨
            (tallyVotes (roundResults cs resps) c.name =
                tallyVotes (roundResults cs resps) w.name ∧
              avgConfidence (roundResults cs resps) c.name ≤
                avgConfidence (roundResults cs resps) w.name)) := by
  intro cs mode resps res h hne
  have hpos := roundResults_den_pos cs resps
  unfold votingClassify aggregateVotes at h
  split at h
  · split at h
    · cases h
      exact absurd rfl hne
    · simp at h
  · split at h
    · rename_i w hw
      cases h
      obtain ⟨l1, l2, hdec, h1, h2⟩ := pickWinner_spec hpos hw
      refine ⟨w, l1, l2, hdec, rfl, ?_, ?_⟩
      · intro c hc
        have hk := h1 c hc
        simp only [winnerKey, Prod.Lex.lt_iff] at hk
        rcases hk with hk | ⟨hkt, hks⟩
        · exact Or.inl hk
        · exact Or.inr ⟨hkt, ((confSum_vs_avg hpos hkt).1).mp hks⟩
      · intro c hc
        have hk := h2 c hc
        simp only [winnerKey, Prod.Lex.le_iff] at hk
        rcases hk with hk | ⟨hkt, hks⟩
        · exact Or.inl hk
        · exact Or.inr ⟨hkt, ((confSum_vs_avg hpos hkt).2).mp hks⟩
    · split at h
      · cases h
        exact absurd rfl hne
      · simp at h

/-- C2 witness: with one vote each for cat_a (confidence 0.9) and cat_b
(confidence 0.6) the result is cat_a, and it relates to every other
category as the tie-break policy states. -/
theorem voting_tiebreak_avg_then_order_witness :
    votingClassify csVote .lenient respsTie = .ok tieResult ∧
    (∃ w l1 l2, csVote.categories = l1 ++ w :: l2 ∧ tieResult.category = w.name ∧
      (∀ c ∈ l1,
        tallyVotes (roundResults csVote respsTie) c.name <
            tallyVotes (roundResults csVote respsTie) w.name ∨
          (tallyVotes (roundResults csVote respsTie) c.name =
              tallyVotes (roundResults csVote respsTie) w.name ∧
            avgConfidence (roundResults csVote respsTie) c.name <
              avgConfidence (roundResults csVote respsTie) w.name)) ∧
      (∀ c ∈ l2,
        tallyVotes (roundResults csVote respsTie) c.name <
            tallyVotes (roundResults csVote respsTie) w.name ∨
          (tallyVotes (roundResults csVote respsTie) c.name =
              tallyVotes (roundResults csVote respsTie) w.name ∧
            avgConfidence (roundResults csVote respsTie) c.name ≤
              avgConfidence (roundResults csVote respsTie) w.name))) :=
  ⟨by decide,
    voting_tiebreak_avg_then_order csVote .lenient respsTie tieResult (by decide) (by decide)⟩

/-- C6: single-shot classification of the mocked response
"category: debt_not_owed\nconfidence: 0.82" against the notebook category
set yields debt_not_owed with confidence 0.82; the parser accepts the two
labeled lines with case-insensitive label matching. -/
theorem single_shot_parses_demo_response :
    singleShotClassify csComplaints .lenient (.ok demoResponse) =
      .ok ⟨"debt_not_owed", ⟨82, 100⟩, some demoResponse, none⟩ ∧
    (Frac.mk 82 100).toRat = (0.82 : ℚ) ∧
    parseResponse "CATEGORY: debt_not_owed\nConfidence: 0.82" =
      some ("debt_not_owed", ⟨82, 100⟩) :=
  ⟨by decide, by norm_num [Frac.toRat], by decide⟩

instance : RightCommutative Frac.add :=
  ⟨fun b x y => by simp only [Frac.add, Frac.mk.injEq]; constructor <;> ring⟩

/-- Tallies depend only on the multiset of round results. -/
theorem tallyVotes_perm {r1 r2 : List ClassificationResult} (h : r1.Perm r2) :
    tallyVotes r1 = tallyVotes r2 :=
  funext fun _ => ((h.filter _).filter _).length_eq

/-- Confidence sums depend only on the multiset of round results. -/
theorem confSum_perm {r1 r2 : List ClassificationResult} (h : r1.Perm r2) :
    confSum r1 = confSum r2 :=
  funext fun _ => (((h.filter _).filter _).map _).foldl_eq _

/-- The head-to-head comparison depends only on the multiset of results. -/
theorem beats_perm {r1 r2 : List ClassificationResult} (h : r1.Perm r2) :
    beats r1 = beats r2 := by
  funext cand best
  unfold beats
  rw [tallyVotes_perm h, confSum_perm h]

/-- Winner resolution depends only on the multiset of results. -/
theorem pickWinner_perm {r1 r2 : List ClassificationResult} (h : r1.Perm r2)
    (cats : List Category) : pickWinner r1 cats = pickWinner r2 cats := by
  cases cats with
  | nil => rfl
  | cons c rest => simp only [pickWinner, beats_perm h]

/-- The exposed vote distribution depends only on the multiset of results. -/
theorem voteDistribution_perm (cs : CategorySet) {r1 r2 : List ClassificationResult}
    (h : r1.Perm r2) : voteDistribution cs r1 = voteDistribution cs r2 := by
  unfold voteDistribution
  simp only [tallyVotes_perm h]

/-- C9: the result of a voting call (winner, confidence and vote
distribution) is invariant under any permutation of the per-round
outcomes; completion order never changes the result. -/
theorem voting_perm_invariant :
    ∀ (cs : CategorySet) (mode : ErrorMode) (resps resps' : List LLMResponse),
      resps.Perm resps' →
      votingClassify cs mode resps = votingClassify cs mode resps' := by
  intro cs mode resps resps' hp
  have h : (roundResults cs resps).Perm (roundResults cs resps') := hp.map _
  have hsp : (successfulResults (roundResults cs resps)).Perm
      (successfulResults (roundResults cs resps')) := h.filter _
  have hie : (successfulResults (roundResults cs resps)).isEmpty =
      (successfulResults (roundResults cs resps')).isEmpty := by
    rw [Bool.eq_iff_iff, List.isEmpty_iff, List.isEmpty_iff,
      ← List.length_eq_zero, ← List.length_eq_zero, hsp.length_eq]
  have hpw := pickWinner_perm h cs.categories
  have htv := tallyVotes_perm h
  have hlen := h.length_eq
  have hvd := voteDistribution_perm cs h
  unfold votingClassify aggregateVotes
  simp only [hie, hpw, htv, hlen, hvd]

/-- C9 witness: swapping the two tied rounds leaves the result unchanged. -/
theorem voting_perm_invariant_witness :
    votingClassify csVote .lenient respsTie =
      votingClassify csVote .lenient
        [.ok "category: cat_b\nconfidence: 0.6", .ok "category: cat_a\nconfidence: 0.9"] :=
  voting_perm_invariant csVote .lenient _ _ (List.Perm.swap _ _ _)

/-- C10: voting classification is invoked through the same classify method
via the keyword parameters voting_classifier and voting_rounds on a
classifier bound to its category set and LLM client at construction, and
classify with only a text argument is single-shot classification in the
default lenient mode. -/
theorem classify_interface_dispatch :
    ∀ (clf : Classifier) (text : String) (n : Nat) (mode : ErrorMode),
      clf.classify text true n mode =
        votingClassify clf.categories mode ((List.range n).map (clf.llm text)) ∧
      clf.classify text =
        singleShotClassify clf.categories .lenient (clf.llm text 0) := by
  intro clf text n mode
  exact ⟨rfl, rfl⟩

end Tagmatic
